import Mathlib

/-!
# Verification of the `recall` memory store

A shallow embedding of the core of the `recall` repository
(`src/recall/store.py` and `src/recall/embedder.py`) together with proofs
about its search, storage and import/export behaviour.

## Modelling conventions

* Machine floats (`numpy.float32` values: embedding components, similarity
  scores, `min_score`, timestamps) are modelled as elements of an arbitrary
  linearly ordered commutative ring `K` (instantiated with `ℤ` for concrete
  evaluations; the theorems hold for `ℚ` and `ℝ` as well).  Rounding is out
  of scope; arithmetic is exact.
* A cosine-similarity value is `num / sqrt denSq`.  Since square roots do
  not exist in `K`, a score is represented by the pair `(num, denSq)`,
  where `num` is the dot product of the two vectors and `denSq` is the
  product of their squared norms.  `denSq = 0` encodes IEEE NaN: in
  `cosine_similarities` a zero-norm vector yields a `0.0/0.0 = NaN`
  normalization which propagates into the dot product.  Every comparison
  the program performs on scores is expressed exactly on these pairs
  (`scoreGe`, `scoreLe`, `scoreGeS` below); in particular a NaN score
  compares `False` under `>=`, exactly as Python floats do.
* The external sentence-transformers model (`embed_text` / `embed_texts`)
  is an opaque deterministic function; it is passed to each operation as a
  parameter `embed : String → List K`.  `embed_texts` embeds each text of
  the batch exactly as `embed_text` does.
* The SQLite table is modelled as the list of its rows in rowid
  (insertion) order, which is the order a `SELECT` without `ORDER BY`
  returns, together with the next `AUTOINCREMENT` id.  `CURRENT_TIMESTAMP`
  is modelled by an explicit `now : K` argument to the inserting
  operations.  `Python list.sort` (stable) and SQL `ORDER BY` are modelled
  by a stable insertion sort.
-/

namespace Recall

/-! ## embedder.py -/

/-- Model of `np.dot` on vectors (`float` arithmetic idealised in `K`). -/
def dot {K : Type} [LinearOrderedCommRing K] (a b : List K) : K :=
  (List.zipWith (· * ·) a b).sum

/-- Squared euclidean norm: `np.linalg.norm(v) ** 2`. -/
def normSq {K : Type} [LinearOrderedCommRing K] (v : List K) : K :=
  dot v v

/-- Model of `cosine_similarities(query, vectors)` from `embedder.py`:
`query` and each row are divided by their norms and then dotted, so entry
`i` is `dot vᵢ query / sqrt (normSq query * normSq vᵢ)` — represented as
the pair `(dot vᵢ query, normSq query * normSq vᵢ)`.  When either norm is
zero the float computation divides by zero and produces NaN, encoded by a
zero second component. -/
def cosineSimilarities {K : Type} [LinearOrderedCommRing K]
    (query : List K) (vectors : List (List K)) : List (K × K) :=
  vectors.map fun v => (dot v query, normSq query * normSq v)

/-- The score pair `s` represents the genuine float value `0.0` (what the
spec's zero-norm policy would return): not NaN, and numerator zero. -/
@[reducible] def isZeroValue {K : Type} [LinearOrderedCommRing K] (s : K × K) : Prop :=
  s.2 ≠ 0 ∧ s.1 = 0

/-! ## Exact float comparisons on score pairs -/

/-- Python `score >= c` where `score = s.1 / sqrt s.2`.  A NaN score
(`s.2 = 0`) compares `False`, as IEEE `>=` does. -/
def scoreGe {K : Type} [LinearOrderedCommRing K] (s : K × K) (c : K) : Bool :=
  if s.2 = 0 then false
  else if 0 ≤ s.1 then decide (c ≤ 0) || decide (c ^ 2 * s.2 ≤ s.1 ^ 2)
  else decide (c ≤ 0) && decide (s.1 ^ 2 ≤ c ^ 2 * s.2)

/-- Python `score <= c` where `score = s.1 / sqrt s.2`; NaN compares
`False`. -/
def scoreLe {K : Type} [LinearOrderedCommRing K] (s : K × K) (c : K) : Bool :=
  if s.2 = 0 then false
  else if s.1 ≤ 0 then decide (0 ≤ c) || decide (c ^ 2 * s.2 ≤ s.1 ^ 2)
  else decide (0 < c) && decide (s.1 ^ 2 ≤ c ^ 2 * s.2)

/-- Comparison of two score values: `s.1 / sqrt s.2 ≥ t.1 / sqrt t.2`
(used by the sort; by the time the program sorts, every score is
non-NaN). -/
def scoreGeS {K : Type} [LinearOrderedCommRing K] (s t : K × K) : Bool :=
  if 0 ≤ s.1 then decide (t.1 < 0) || decide (t.1 ^ 2 * s.2 ≤ s.1 ^ 2 * t.2)
  else decide (t.1 < 0) && decide (s.1 ^ 2 * t.2 ≤ t.1 ^ 2 * s.2)

/-- Equality of two score values. -/
def scoreEqS {K : Type} [LinearOrderedCommRing K] (s t : K × K) : Bool :=
  scoreGeS s t && scoreGeS t s

/-! ## Stable sorting (Python `list.sort`, SQL `ORDER BY`) -/

/-- Insert `x` into `l` in front of the first element `y` with `r x y`.
Used left-to-right this is a stable sort: an element inserted later is
placed after the equal elements already present. -/
def insertSorted {α : Type} (r : α → α → Bool) (x : α) : List α → List α
  | [] => [x]
  | y :: ys => if r x y then x :: y :: ys else y :: insertSorted r x ys

/-- Stable insertion sort by the Bool relation `r` ("`x` may come before
`y`").  For a total preorder `r` this agrees with Python's stable
`list.sort`. -/
def sortStable {α : Type} (r : α → α → Bool) : List α → List α
  | [] => []
  | x :: xs => insertSorted r x (sortStable r xs)

/-! ## store.py: data model -/

/-- The `Memory` dataclass (without the transient `score`, which only
exists on search results — see `Scored`). -/
structure Memory (K : Type) where
  id : Nat
  content : String
  tags : List String
  created_at : K
  embedding : List K
deriving DecidableEq

/-- A search result: a memory together with its attached score pair
(`mem.score = num / sqrt den`). -/
structure Scored (K : Type) where
  mem : Memory K
  num : K
  den : K
deriving DecidableEq

/-- The `memories` SQLite table: rows in rowid (insertion) order plus the
next AUTOINCREMENT id. -/
structure Store (K : Type) where
  rows : List (Memory K)
  nextId : Nat
deriving DecidableEq

/-- A freshly created database: no rows, first id is 1. -/
def emptyStore (K : Type) : Store K := ⟨[], 1⟩

/-! ## store.py: operations -/

/-- Model of `MemoryStore.add`: embed the content, insert the row (picking up the
next id and the current timestamp), return the new `Memory` and the new
store state. -/
def Store.add {K : Type} [LinearOrderedCommRing K] (s : Store K)
    (embed : String → List K) (now : K) (content : String)
    (tags : List String) : Memory K × Store K :=
  let m : Memory K := ⟨s.nextId, content, tags, now, embed content⟩
  (m, ⟨s.rows ++ [m], s.nextId + 1⟩)

/-- The rows `add_batch` inserts: one per item, ids assigned sequentially
from `i`, each embedded from its content. -/
def batchRows {K : Type} [LinearOrderedCommRing K] (embed : String → List K)
    (now : K) : Nat → List (String × List String) → List (Memory K)
  | _, [] => []
  | i, (c, t) :: rest => ⟨i, c, t, now, embed c⟩ :: batchRows embed now (i + 1) rest

/-- Model of `MemoryStore.add_batch`: embed all contents, insert all rows in one
transaction, return `len(rows)`. -/
def Store.add_batch {K : Type} [LinearOrderedCommRing K] (s : Store K)
    (embed : String → List K) (now : K)
    (items : List (String × List String)) : Nat × Store K :=
  (items.length, ⟨s.rows ++ batchRows embed now s.nextId items,
                  s.nextId + items.length⟩)

/-- Model of `MemoryStore.count`: `SELECT COUNT(*)`. -/
def Store.count {K : Type} (s : Store K) : Nat := s.rows.length

/-- Model of `MemoryStore.delete`: `DELETE FROM memories WHERE id = ?`, returning
`cursor.rowcount > 0`. -/
def Store.delete {K : Type} (s : Store K) (memory_id : Nat) : Bool × Store K :=
  let remaining := s.rows.filter fun m => m.id != memory_id
  (decide (remaining.length < s.rows.length), ⟨remaining, s.nextId⟩)

/-- Modelled from the spec: `get(id) -> Memory or absent` (§4.4).
`MemoryStore.get` is called by the CLI (`edit` command) but its definition
is absent from `store.py`; the spec defines it as id lookup. -/
def Store.get {K : Type} (s : Store K) (memory_id : Nat) : Option (Memory K) :=
  s.rows.find? fun m => m.id == memory_id

/-- Modelled from the spec: `update(id, content?, tags?) -> bool`
(§4.4, §4.1).  `MemoryStore.update` is called by the CLI (`edit` command)
but its definition is absent from `store.py`.  Per the spec it patches
only the supplied fields under the same id; a supplied content is
re-embedded and content and embedding are updated together; a tag-only
update does not touch the embedding; it returns false if the id is
absent. -/
def Store.update {K : Type} [LinearOrderedCommRing K] (s : Store K)
    (embed : String → List K) (memory_id : Nat) (content : Option String)
    (tags : Option (List String)) : Bool × Store K :=
  if s.rows.any (fun m => m.id == memory_id) then
    (true,
     ⟨s.rows.map fun m =>
        if m.id == memory_id then
          { m with
            content := content.getD m.content
            tags := tags.getD m.tags
            embedding :=
              match content with
              | some c => embed c
              | none => m.embedding }
        else m,
      s.nextId⟩)
  else (false, s)

/-- Test `any(t in mem_tags for t in tags)`: the memory shares at least one tag
with the filter. -/
def anyTagMatch (filt : List String) (memTags : List String) : Bool :=
  filt.any fun t => memTags.contains t

/-- The row-selection test of `search`/`list`: a row is skipped iff the
tag argument is truthy (present and non-empty) and shares no tag with the
row (`if tags and not any(t in mem_tags for t in tags): continue`). -/
def tagPass (tags : Option (List String)) (memTags : List String) : Bool :=
  match tags with
  | none => true
  | some filt => if filt.isEmpty then true else anyTagMatch filt memTags

/-- The candidate rows `search` builds its arrays from: all table rows,
restricted by the tag test. -/
def Store.candidates {K : Type} (s : Store K)
    (tags : Option (List String)) : List (Memory K) :=
  s.rows.filter fun m => tagPass tags m.tags

/-- The candidates with their scores attached
(`scores = cosine_similarities(query_embedding, embeddings_array)`;
`mem.score = float(scores[i])`). -/
def Store.searchScored {K : Type} [LinearOrderedCommRing K] (s : Store K)
    (embed : String → List K) (query : String)
    (tags : Option (List String)) : List (Scored K) :=
  (s.candidates tags).map fun m =>
    ⟨m, dot m.embedding (embed query), normSq (embed query) * normSq m.embedding⟩

/-- The scored candidates that survive the threshold
(`[m for m in memories if m.score >= min_score]`). -/
def Store.searchKept {K : Type} [LinearOrderedCommRing K] (s : Store K)
    (embed : String → List K) (query : String)
    (tags : Option (List String)) (min_score : K) : List (Scored K) :=
  (s.searchScored embed query tags).filter fun sc => scoreGe (sc.num, sc.den) min_score

/-- The sort relation of `memories.sort(key=lambda m: m.score, reverse=True)`. -/
def scoredGe {K : Type} [LinearOrderedCommRing K] (a b : Scored K) : Bool :=
  scoreGeS (a.num, a.den) (b.num, b.den)

/-- Model of `MemoryStore.search`: embed the query, select candidates by tag,
score them, drop scores below `min_score`, stable-sort descending by
score, truncate to `limit`.  Only `SELECT` statements run, so the second
component (the state after the call) is the input state. -/
def Store.search {K : Type} [LinearOrderedCommRing K] (s : Store K)
    (embed : String → List K) (query : String) (limit : Nat)
    (tags : Option (List String)) (min_score : K) :
    List (Scored K) × Store K :=
  ((sortStable scoredGe (s.searchKept embed query tags min_score)).take limit, s)

/-- Row order of `ORDER BY created_at DESC`. -/
def createdDesc {K : Type} [LinearOrderedCommRing K] (a b : Memory K) : Bool :=
  decide (b.created_at ≤ a.created_at)

/-- Row order of `ORDER BY created_at` (ascending). -/
def createdAsc {K : Type} [LinearOrderedCommRing K] (a b : Memory K) : Bool :=
  decide (a.created_at ≤ b.created_at)

/-- Model of `MemoryStore.list`: walk rows most-recent-first, keep the tag-passing
ones, stop after `limit`. -/
def Store.list {K : Type} [LinearOrderedCommRing K] (s : Store K)
    (limit : Nat) (tags : Option (List String)) : List (Memory K) :=
  ((sortStable createdDesc s.rows).filter fun m => tagPass tags m.tags).take limit

/-- One exported record: `{"id": …, "content": …, "tags": …,
"created_at": …}` (no embedding). -/
structure ExportRec (K : Type) where
  id : Nat
  content : String
  tags : List String
  created_at : K
deriving DecidableEq

/-- Model of `MemoryStore.export_json`: all rows ordered by `created_at`
ascending, projected to the interchange records. -/
def Store.export_json {K : Type} [LinearOrderedCommRing K]
    (s : Store K) : List (ExportRec K) :=
  (sortStable createdAsc s.rows).map fun m => ⟨m.id, m.content, m.tags, m.created_at⟩

/-- Model of `MemoryStore.import_json`: keep only `content` and `tags` of each
record (`(d["content"], d.get("tags", []))`) and hand them to
`add_batch`; ids and timestamps are freshly assigned on insert. -/
def Store.import_json {K : Type} [LinearOrderedCommRing K] (s : Store K)
    (embed : String → List K) (now : K)
    (data : List (ExportRec K)) : Nat × Store K :=
  s.add_batch embed now (data.map fun d => (d.content, d.tags))

/-! ## Concrete instances used by witnesses and counterexamples -/

/-- A concrete embedding provider: every text embeds to the vector `[1]`
(as the real model does, it gives identical texts identical embeddings). -/
def embedOne : String → List ℤ := fun _ => [1]

/-- Two memories with identical embeddings, the older (`id 1`,
`created_at 0`) inserted before the newer (`id 2`, `created_at 1`). -/
def twoRowStore : Store ℤ :=
  ((((emptyStore ℤ).add embedOne 0 "alpha" []).2).add embedOne 1 "beta" []).2

/-- A store with a single memory tagged `["a", "b"]`. -/
def taggedStore : Store ℤ :=
  ((emptyStore ℤ).add embedOne 0 "alpha" ["a", "b"]).2

/-- The claim C1 formalises the spec's tie-break: whenever a result
precedes another of equal score, its `created_at` is not the older one. -/
@[reducible] def tieBreakRecent {K : Type} [LinearOrderedCommRing K] (l : List (Scored K)) : Prop :=
  l.Pairwise fun a b =>
    scoreEqS (a.num, a.den) (b.num, b.den) = true → ¬ a.mem.created_at < b.mem.created_at

/-! ## Lemmas about the stable insertion sort -/

theorem insertSorted_perm {α : Type} (r : α → α → Bool) (x : α) (l : List α) :
    (insertSorted r x l).Perm (x :: l) := by
  induction l with
  | nil => exact List.Perm.refl _
  | cons y ys ih =>
    unfold insertSorted
    split
    · exact List.Perm.refl _
    · exact (ih.cons y).trans (List.Perm.swap x y ys)

theorem sortStable_perm {α : Type} (r : α → α → Bool) (l : List α) :
    (sortStable r l).Perm l := by
  induction l with
  | nil => exact List.Perm.refl _
  | cons x xs ih =>
    exact (insertSorted_perm r x (sortStable r xs)).trans (ih.cons x)

theorem mem_sortStable {α : Type} {r : α → α → Bool} {l : List α} {a : α} :
    a ∈ sortStable r l ↔ a ∈ l :=
  (sortStable_perm r l).mem_iff

theorem pairwise_insertSorted {α : Type} {r : α → α → Bool} {P : α → Prop}
    (htot : ∀ a b, P a → P b → r a b = true ∨ r b a = true)
    (htrans : ∀ a b c, P a → P b → P c → r a b = true → r b c = true → r a c = true)
    {x : α} (hx : P x) :
    ∀ {l : List α}, (∀ y ∈ l, P y) → (l.Pairwise fun a b => r a b = true) →
      (insertSorted r x l).Pairwise fun a b => r a b = true := by
  intro l
  induction l with
  | nil => intro _ _; simp [insertSorted]
  | cons y ys ih =>
    intro hl hp
    have hy : P y := hl y (by simp)
    have hys : ∀ z ∈ ys, P z := fun z hz => hl z (List.mem_cons_of_mem y hz)
    rw [List.pairwise_cons] at hp
    unfold insertSorted
    by_cases h : r x y = true
    · rw [if_pos h, List.pairwise_cons]
      refine ⟨?_, List.pairwise_cons.mpr hp⟩
      intro z hz
      rcases List.mem_cons.mp hz with rfl | hz'
      · exact h
      · exact htrans x y z hx hy (hys z hz') h (hp.1 z hz')
    · rw [if_neg h, List.pairwise_cons]
      refine ⟨?_, ih hys hp.2⟩
      intro z hz
      rcases List.mem_cons.mp ((insertSorted_perm r x ys).mem_iff.mp hz) with hzx | hz'
      · rcases htot x y hx hy with h1 | h1
        · exact absurd h1 h
        · rw [hzx]
          exact h1
      · exact hp.1 z hz'

theorem pairwise_sortStable {α : Type} {r : α → α → Bool} {P : α → Prop}
    (htot : ∀ a b, P a → P b → r a b = true ∨ r b a = true)
    (htrans : ∀ a b c, P a → P b → P c → r a b = true → r b c = true → r a c = true)
    {l : List α} (hl : ∀ y ∈ l, P y) :
    (sortStable r l).Pairwise fun a b => r a b = true := by
  induction l with
  | nil => simp [sortStable]
  | cons x xs ih =>
    exact pairwise_insertSorted htot htrans (hl x (by simp))
      (fun y hy => hl y (List.mem_cons_of_mem x (mem_sortStable.mp hy)))
      (ih fun y hy => hl y (List.mem_cons_of_mem x hy))

theorem filter_insertSorted_pos {α : Type} {r : α → α → Bool} {p : α → Bool}
    {x : α} (hx : p x = true) :
    ∀ l : List α, (∀ y ∈ l, p y = true → r x y = true) →
      (insertSorted r x l).filter p = x :: l.filter p := by
  intro l
  induction l with
  | nil => intro _; simp [insertSorted, hx]
  | cons y ys ih =>
    intro hcomp
    unfold insertSorted
    by_cases h : r x y = true
    · rw [if_pos h]
      simp [List.filter_cons, hx]
    · rw [if_neg h]
      have hpy : p y = false := by
        cases hyv : p y
        · rfl
        · exact absurd (hcomp y (by simp) hyv) h
      rw [List.filter_cons, List.filter_cons]
      simp only [hpy, Bool.false_eq_true, if_false]
      exact ih fun z hz hpz => hcomp z (List.mem_cons_of_mem y hz) hpz

theorem filter_insertSorted_neg {α : Type} {r : α → α → Bool} {p : α → Bool}
    {x : α} (hx : p x = false) :
    ∀ l : List α, (insertSorted r x l).filter p = l.filter p := by
  intro l
  induction l with
  | nil => simp [insertSorted, hx]
  | cons y ys ih =>
    unfold insertSorted
    by_cases h : r x y = true
    · rw [if_pos h]
      simp [List.filter_cons, hx]
    · rw [if_neg h]
      simp [List.filter_cons, ih]

theorem filter_sortStable_eq {α : Type} {r : α → α → Bool} {p : α → Bool}
    {l : List α}
    (hmut : ∀ a b, a ∈ l → b ∈ l → p a = true → p b = true → r a b = true) :
    (sortStable r l).filter p = l.filter p := by
  induction l with
  | nil => rfl
  | cons x xs ih =>
    have hmut' : ∀ a b, a ∈ xs → b ∈ xs → p a = true → p b = true → r a b = true :=
      fun a b ha hb => hmut a b (List.mem_cons_of_mem x ha) (List.mem_cons_of_mem x hb)
    show (insertSorted r x (sortStable r xs)).filter p = _
    cases hx : p x
    · rw [filter_insertSorted_neg hx, ih hmut', List.filter_cons]
      simp [hx]
    · rw [filter_insertSorted_pos hx _
        (fun y hy hpy => hmut x y (by simp) (List.mem_cons_of_mem x (mem_sortStable.mp hy)) hx hpy),
        ih hmut', List.filter_cons]
      simp [hx]

theorem filter_take_eq {α : Type} (p : α → Bool) :
    ∀ (l : List α) (n : Nat), ∃ m, (l.take n).filter p = (l.filter p).take m := by
  intro l
  induction l with
  | nil => intro n; exact ⟨0, by simp⟩
  | cons x xs ih =>
    intro n
    cases n with
    | zero => exact ⟨0, by simp⟩
    | succ k =>
      obtain ⟨m, hm⟩ := ih k
      cases hx : p x
      · exact ⟨m, by simp [List.filter_cons, hx, hm]⟩
      · exact ⟨m + 1, by simp [List.filter_cons, hx, hm]⟩

/-! ## Lemmas about scores -/

theorem normSq_cons {K : Type} [LinearOrderedCommRing K] (x : K) (xs : List K) :
    normSq (x :: xs) = x * x + normSq xs := by
  simp [normSq, dot]

theorem normSq_nonneg {K : Type} [LinearOrderedCommRing K] (v : List K) :
    0 ≤ normSq v := by
  induction v with
  | nil => simp [normSq, dot]
  | cons x xs ih =>
    rw [normSq_cons]
    exact add_nonneg (mul_self_nonneg x) ih

/-- Cauchy–Schwarz for the list dot product (lengths may differ; `zipWith`
truncates, which only shrinks the left side). -/
theorem dot_sq_le {K : Type} [LinearOrderedCommRing K] :
    ∀ a b : List K, dot a b ^ 2 ≤ normSq a * normSq b := by
  intro a
  induction a with
  | nil => intro b; simp [dot, normSq]
  | cons x xs ih =>
    intro b
    cases b with
    | nil => simp [dot, normSq]
    | cons y ys =>
      have hd : dot (x :: xs) (y :: ys) = x * y + dot xs ys := by
        simp [dot]
      rw [hd, normSq_cons, normSq_cons]
      have h1 := ih ys
      have h2 := normSq_nonneg xs
      have h3 := normSq_nonneg ys
      rcases lt_or_eq_of_le h3 with hB | hB
      · nlinarith [sq_nonneg (x * normSq ys - y * dot xs ys),
                   mul_nonneg (sub_nonneg.mpr h1) h3,
                   mul_nonneg (sub_nonneg.mpr h1) (sq_nonneg y)]
      · have hB0 : normSq ys = 0 := hB.symm
        have hd0 : dot xs ys = 0 := by
          have hle : dot xs ys ^ 2 ≤ 0 := by
            have h1' := h1
            rw [hB0, mul_zero] at h1'
            exact h1'
          have hzero : dot xs ys ^ 2 = 0 := le_antisymm hle (sq_nonneg _)
          exact (pow_eq_zero_iff (n := 2) (by norm_num)).mp hzero
        rw [hB0, hd0]
        nlinarith [mul_nonneg h2 (sq_nonneg y)]

theorem scoreGe_den_ne_zero {K : Type} [LinearOrderedCommRing K]
    {s : K × K} {c : K} (h : scoreGe s c = true) : s.2 ≠ 0 := by
  intro h0
  simp [scoreGe, h0] at h

theorem scoreGeS_total {K : Type} [LinearOrderedCommRing K] (s t : K × K) :
    scoreGeS s t = true ∨ scoreGeS t s = true := by
  unfold scoreGeS
  rcases le_or_lt 0 s.1 with h1 | h1 <;> rcases le_or_lt 0 t.1 with h2 | h2
  · rw [if_pos h1, if_pos h2]
    rcases le_total (t.1 ^ 2 * s.2) (s.1 ^ 2 * t.2) with h | h
    · left; simp [h]
    · right; simp [h]
  · rw [if_pos h1]
    left; simp [h2]
  · rw [if_pos h2]
    right; simp [h1]
  · rw [if_neg (not_le.mpr h1), if_neg (not_le.mpr h2)]
    rcases le_total (s.1 ^ 2 * t.2) (t.1 ^ 2 * s.2) with h | h
    · left; simp [h, h2]
    · right; simp [h, h1]

/-- Chained comparison of squared ratios: from `b/d1' ≤ a/d2` and
`c/d3' ≤ b/d2` in cross-multiplied form, conclude the outer comparison. -/
theorem sq_ratio_trans {K : Type} [LinearOrderedCommRing K]
    {a b c d1 d2 d3 : K} (hd2 : 0 < d2) (ha : 0 ≤ a) (hb : 0 ≤ b) (hc : 0 ≤ c)
    (hd1 : 0 ≤ d1) (hd3 : 0 ≤ d3)
    (h1 : b * d1 ≤ a * d2) (h2 : c * d2 ≤ b * d3) : c * d1 ≤ a * d3 := by
  rcases lt_or_eq_of_le hb with hbp | hb0
  · nlinarith [mul_le_mul h1 h2 (mul_nonneg hc hd2.le) (mul_nonneg ha hd2.le),
               mul_pos hbp hd2]
  · have hb0' : b = 0 := hb0.symm
    rw [hb0'] at h1 h2
    have hc0 : c = 0 := by nlinarith
    rw [hc0, zero_mul]
    exact mul_nonneg ha hd3

theorem scoreGeS_trans {K : Type} [LinearOrderedCommRing K] {s t u : K × K}
    (hs : 0 < s.2) (ht : 0 < t.2) (hu : 0 < u.2)
    (hst : scoreGeS s t = true) (htu : scoreGeS t u = true) :
    scoreGeS s u = true := by
  unfold scoreGeS at hst htu ⊢
  rcases le_or_lt 0 s.1 with h1 | h1
  · rw [if_pos h1] at hst
    rw [if_pos h1]
    rcases lt_or_le u.1 0 with h3 | h3
    · simp [h3]
    · rcases le_or_lt 0 t.1 with h2 | h2
      · rw [if_pos h2] at htu
        simp only [Bool.or_eq_true, decide_eq_true_eq] at hst htu ⊢
        right
        rcases htu with h | hbc
        · exact absurd h (not_lt.mpr h3)
        rcases hst with h | hab
        · exact absurd h (not_lt.mpr h2)
        exact sq_ratio_trans ht (sq_nonneg s.1) (sq_nonneg t.1) (sq_nonneg u.1)
          hs.le hu.le hab hbc
      · rw [if_neg (not_le.mpr h2)] at htu
        simp only [Bool.and_eq_true, decide_eq_true_eq] at htu
        exact absurd htu.1 (not_lt.mpr h3)
  · rw [if_neg (not_le.mpr h1)] at hst
    rw [if_neg (not_le.mpr h1)]
    simp only [Bool.and_eq_true, decide_eq_true_eq] at hst
    obtain ⟨h2, hab⟩ := hst
    rw [if_neg (not_le.mpr h2)] at htu
    simp only [Bool.and_eq_true, decide_eq_true_eq] at htu
    obtain ⟨h3, hbc⟩ := htu
    simp only [Bool.and_eq_true, decide_eq_true_eq]
    exact ⟨h3, sq_ratio_trans ht (sq_nonneg u.1) (sq_nonneg t.1) (sq_nonneg s.1)
      hu.le hs.le hbc hab⟩

/-! ## Lemmas about the search pipeline -/

/-- Every element surviving the threshold filter passed `>= min_score`,
has a strictly positive squared denominator (so it is not NaN), and its
numerator obeys Cauchy–Schwarz against that denominator. -/
theorem mem_searchKept_props {K : Type} [LinearOrderedCommRing K]
    {s : Store K} {embed : String → List K} {query : String}
    {tags : Option (List String)} {min_score : K} {sc : Scored K}
    (h : sc ∈ s.searchKept embed query tags min_score) :
    scoreGe (sc.num, sc.den) min_score = true
    ∧ 0 < sc.den ∧ sc.num ^ 2 ≤ sc.den := by
  rw [Store.searchKept, List.mem_filter] at h
  obtain ⟨hmem, hge⟩ := h
  rw [Store.searchScored, List.mem_map] at hmem
  obtain ⟨m, hm, rfl⟩ := hmem
  refine ⟨hge, ?_, ?_⟩
  · exact lt_of_le_of_ne
      (mul_nonneg (normSq_nonneg (embed query)) (normSq_nonneg m.embedding))
      (Ne.symm (scoreGe_den_ne_zero hge))
  · exact le_of_le_of_eq (dot_sq_le m.embedding (embed query)) (mul_comm _ _)

/-- A returned search result is one of the threshold survivors. -/
theorem mem_search_mem_kept {K : Type} [LinearOrderedCommRing K]
    {s : Store K} {embed : String → List K} {query : String} {limit : Nat}
    {tags : Option (List String)} {min_score : K} {sc : Scored K}
    (h : sc ∈ (s.search embed query limit tags min_score).1) :
    sc ∈ s.searchKept embed query tags min_score := by
  simp only [Store.search] at h
  exact mem_sortStable.mp (List.mem_of_mem_take h)

/-! ## Claim C10: search leaves the persisted store unchanged -/

/-- C10: `search` only runs `SELECT` statements, so the store state after
the call — its row list (ids, contents, tags, embeddings, timestamps) and
its count — is exactly the state before the call. -/
theorem search_leaves_store_unchanged {K : Type} [LinearOrderedCommRing K]
    (s : Store K) (embed : String → List K) (query : String) (limit : Nat)
    (tags : Option (List String)) (min_score : K) :
    (s.search embed query limit tags min_score).2 = s
    ∧ ((s.search embed query limit tags min_score).2).rows = s.rows
    ∧ ((s.search embed query limit tags min_score).2).count = s.count :=
  ⟨rfl, rfl, rfl⟩

/-! ## Claim C5: `add` with empty content -/

/-- C5 counterexample: `add` performs no validation, so adding the empty
string to an empty store does change the store (one row is inserted),
contradicting "fails with `InvalidArgument` … and leaves the store
unchanged". -/
theorem add_empty_content_counterexample :
    ((emptyStore ℤ).add embedOne 0 "" []).2 ≠ emptyStore ℤ
    ∧ (((emptyStore ℤ).add embedOne 0 "" []).2).count = 1 := by
  constructor
  · decide
  · decide

/-- C5 amended: `add` called with empty content does not fail — there is
no validation in `MemoryStore.add` — it embeds the empty string and
appends a row exactly as for any other content, growing the store by one
row. -/
theorem add_empty_content_inserts {K : Type} [LinearOrderedCommRing K]
    (s : Store K) (embed : String → List K) (now : K) (tags : List String) :
    ((s.add embed now "" tags).2).rows = s.rows ++ [(s.add embed now "" tags).1]
    ∧ (s.add embed now "" tags).1.content = ""
    ∧ (s.add embed now "" tags).1.embedding = embed ""
    ∧ ((s.add embed now "" tags).2).count = s.count + 1 := by
  refine ⟨rfl, rfl, rfl, ?_⟩
  simp [Store.add, Store.count]

/-! ## Claim C2: zero-norm vectors in `cosine_similarities` -/

theorem length_cosineSimilarities {K : Type} [LinearOrderedCommRing K]
    (query : List K) (vectors : List (List K)) :
    (cosineSimilarities query vectors).length = vectors.length :=
  List.length_map _ _

/-- C2 counterexample: for the zero-norm query `[0]` against the single
candidate `[1]`, the engine's output entry is the NaN pair (denominator
square `0`, from the `0.0/0.0` normalization) — not the float value
`0.0` the claim requires. -/
theorem cosine_zero_norm_counterexample :
    normSq ([0] : List ℤ) = 0
    ∧ ¬ isZeroValue ((cosineSimilarities ([0] : List ℤ) [[1]]).headI) := by
  constructor
  · decide
  · decide

/-- C2 amended: `cosine_similarities` has no zero-norm handling: whenever
the query or the `i`-th candidate row has zero norm, the `i`-th output is
the NaN pair (second component `0`) produced by dividing by the zero
norm; it is never the value `0.0` and no error is raised. -/
theorem cosine_zero_norm_gives_nan {K : Type} [LinearOrderedCommRing K]
    (query : List K) (vectors : List (List K)) (i : Nat)
    (hi : i < vectors.length)
    (h : normSq query = 0 ∨ normSq vectors[i] = 0) :
    (cosineSimilarities query vectors)[i]? = some (dot vectors[i] query, 0) := by
  have hmap : (cosineSimilarities query vectors)[i]?
      = some (dot vectors[i] query, normSq query * normSq vectors[i]) := by
    rw [cosineSimilarities, List.getElem?_map, List.getElem?_eq_getElem hi]
    rfl
  rw [hmap]
  rcases h with h | h
  · rw [h, zero_mul]
  · rw [h, mul_zero]

/-- Witness for C2's amended theorem at the concrete zero-norm query. -/
theorem cosine_zero_norm_gives_nan_witness :
    (cosineSimilarities ([0] : List ℤ) [[1]])[0]? = some (dot [(1 : ℤ)] [0], 0) :=
  cosine_zero_norm_gives_nan ([0] : List ℤ) [[1]] 0 (by decide) (Or.inl (by decide))

/-! ## Claim C8: `delete` contract -/

/-- C8: deleting an absent id returns false and leaves the count
unchanged; deleting a present id returns true and afterwards no row with
that id exists. -/
theorem delete_contract {K : Type} (s : Store K) (memory_id : Nat) :
    ((∀ m ∈ s.rows, m.id ≠ memory_id) →
       (s.delete memory_id).1 = false
       ∧ ((s.delete memory_id).2).count = s.count)
    ∧ ((∃ m ∈ s.rows, m.id = memory_id) →
       (s.delete memory_id).1 = true
       ∧ ∀ m ∈ ((s.delete memory_id).2).rows, m.id ≠ memory_id) := by
  constructor
  · intro habs
    have hall : s.rows.filter (fun m => m.id != memory_id) = s.rows :=
      List.filter_eq_self.mpr fun m hm => by
        simp only [bne_iff_ne, ne_eq, decide_eq_true_eq]
        exact habs m hm
    constructor
    · simp [Store.delete, hall]
    · simp [Store.delete, Store.count, hall]
  · rintro ⟨m0, hm0, hid⟩
    constructor
    · simp only [Store.delete, decide_eq_true_eq]
      refine List.length_filter_lt_length_iff_exists.mpr ⟨m0, hm0, ?_⟩
      simp [hid]
    · intro m hm
      simp only [Store.delete] at hm
      have := (List.mem_filter.mp hm).2
      simpa [bne_iff_ne] using this

/-- Witness for C8 at a concrete store: id 99 is absent, id 1 present. -/
theorem delete_contract_witness :
    ((twoRowStore.delete 99).1 = false
       ∧ ((twoRowStore.delete 99).2).count = twoRowStore.count)
    ∧ ((twoRowStore.delete 1).1 = true
       ∧ ∀ m ∈ ((twoRowStore.delete 1).2).rows, m.id ≠ 1) :=
  ⟨(delete_contract twoRowStore 99).1 (by decide),
   (delete_contract twoRowStore 1).2 ⟨⟨1, "alpha", [], 0, [1]⟩, by decide, rfl⟩⟩

/-! ## Claim C1: result ordering of `search` -/

/-- C1 counterexample: two memories with identical embeddings (hence equal
scores), the older one (`created_at 0`) inserted before the newer one
(`created_at 1`).  `memories.sort(key=…score, reverse=True)` is stable and
compares only scores, so the returned order keeps the row order: the
*older* memory comes first, falsifying "the memory with the more recent
`created_at` timestamp appears first". -/
theorem search_tie_recent_counterexample :
    ¬ tieBreakRecent (twoRowStore.search embedOne "q" 10 none 0).1 := by
  decide

/-- C1 amended: the returned sequence is sorted by descending score
(pairwise, each result's score is `≥` every later one's), and whenever two
returned memories have equal scores they appear in the database row order
(insertion order, the order of `searchKept`): for every score value, the
results with that score are an initial run of the threshold survivors with
that score, in unchanged order. -/
theorem search_sorted_desc_stable {K : Type} [LinearOrderedCommRing K]
    (s : Store K) (embed : String → List K) (query : String) (limit : Nat)
    (tags : Option (List String)) (min_score : K) :
    ((s.search embed query limit tags min_score).1.Pairwise
        fun a b => scoredGe a b = true)
    ∧ ∀ p : K × K, 0 < p.2 →
        ∃ m, (s.search embed query limit tags min_score).1.filter
              (fun sc => scoreEqS (sc.num, sc.den) p)
          = ((s.searchKept embed query tags min_score).filter
              (fun sc => scoreEqS (sc.num, sc.den) p)).take m := by
  have hP : ∀ sc ∈ s.searchKept embed query tags min_score, 0 < sc.den :=
    fun sc h => (mem_searchKept_props h).2.1
  have htot : ∀ a b : Scored K, 0 < a.den → 0 < b.den →
      scoredGe a b = true ∨ scoredGe b a = true :=
    fun a b _ _ => scoreGeS_total (a.num, a.den) (b.num, b.den)
  have htrans : ∀ a b c : Scored K, 0 < a.den → 0 < b.den → 0 < c.den →
      scoredGe a b = true → scoredGe b c = true → scoredGe a c = true :=
    fun a b c ha hb hc hab hbc => scoreGeS_trans ha hb hc hab hbc
  constructor
  · have hsorted := pairwise_sortStable htot htrans hP
    simp only [Store.search]
    exact List.Pairwise.sublist (List.take_sublist limit _) hsorted
  · intro p hp
    obtain ⟨m, hm⟩ := filter_take_eq (fun sc => scoreEqS (sc.num, sc.den) p)
      (sortStable scoredGe (s.searchKept embed query tags min_score)) limit
    refine ⟨m, ?_⟩
    have hmut : ∀ a b : Scored K,
        a ∈ s.searchKept embed query tags min_score →
        b ∈ s.searchKept embed query tags min_score →
        scoreEqS (a.num, a.den) p = true → scoreEqS (b.num, b.den) p = true →
        scoredGe a b = true := by
      intro a b ha hb hpa hpb
      simp only [scoreEqS, Bool.and_eq_true] at hpa hpb
      exact scoreGeS_trans (hP a ha) hp (hP b hb) hpa.1 hpb.2
    simp only [Store.search]
    rw [hm, filter_sortStable_eq hmut]

/-- Witness for C1's amended theorem at a concrete store and score. -/
theorem search_sorted_desc_stable_witness :
    ((twoRowStore.search embedOne "q" 10 none 0).1.Pairwise
        fun a b => scoredGe a b = true)
    ∧ ∃ m, (twoRowStore.search embedOne "q" 10 none 0).1.filter
            (fun sc => scoreEqS (sc.num, sc.den) ((1 : ℤ), 1))
        = ((twoRowStore.searchKept embedOne "q" none 0).filter
            (fun sc => scoreEqS (sc.num, sc.den) ((1 : ℤ), 1))).take m :=
  ⟨(search_sorted_desc_stable twoRowStore embedOne "q" 10 none 0).1,
   (search_sorted_desc_stable twoRowStore embedOne "q" 10 none 0).2 (1, 1) (by decide)⟩

/-! ## Claim C3: score threshold and score bounds -/

/-- C3: every returned result passed `score >= min_score` (so in
particular no NaN is ever returned), and its score lies in `[-1, 1]`: the
float comparisons `score >= -1` and `score <= 1` both hold, by
Cauchy–Schwarz on the exact representation `num / sqrt den`. -/
theorem search_scores_within_bounds {K : Type} [LinearOrderedCommRing K]
    (s : Store K) (embed : String → List K) (query : String) (limit : Nat)
    (tags : Option (List String)) (min_score : K) :
    ∀ sc ∈ (s.search embed query limit tags min_score).1,
      scoreGe (sc.num, sc.den) min_score = true
      ∧ scoreGe (sc.num, sc.den) (-1) = true
      ∧ scoreLe (sc.num, sc.den) 1 = true := by
  intro sc hsc
  obtain ⟨hge, hdpos, hcs⟩ := mem_searchKept_props (mem_search_mem_kept hsc)
  refine ⟨hge, ?_, ?_⟩
  · unfold scoreGe
    rw [if_neg hdpos.ne']
    rcases le_or_lt 0 sc.num with h | h
    · rw [if_pos h]
      simp only [Bool.or_eq_true, decide_eq_true_eq]
      left
      norm_num
    · rw [if_neg (not_le.mpr h)]
      simp only [Bool.and_eq_true, decide_eq_true_eq]
      refine ⟨by norm_num, ?_⟩
      calc sc.num ^ 2 ≤ sc.den := hcs
        _ = (-1 : K) ^ 2 * sc.den := by ring
  · unfold scoreLe
    rw [if_neg hdpos.ne']
    rcases le_or_lt sc.num 0 with h | h
    · rw [if_pos h]
      simp only [Bool.or_eq_true, decide_eq_true_eq]
      left
      norm_num
    · rw [if_neg (not_le.mpr h)]
      simp only [Bool.and_eq_true, decide_eq_true_eq]
      refine ⟨by norm_num, ?_⟩
      calc sc.num ^ 2 ≤ sc.den := hcs
        _ = (1 : K) ^ 2 * sc.den := by ring

/-- Witness for C3 at a returned result of a concrete search. -/
theorem search_scores_within_bounds_witness :
    scoreGe ((1 : ℤ), 1) 0 = true
    ∧ scoreGe ((1 : ℤ), 1) (-1) = true
    ∧ scoreLe ((1 : ℤ), 1) 1 = true :=
  search_scores_within_bounds twoRowStore embedOne "q" 10 none 0
    ⟨⟨1, "alpha", [], 0, [1]⟩, 1, 1⟩ (by decide)

/-! ## Claim C4: export/import round trip -/

theorem batchRows_map_content_tags {K : Type} [LinearOrderedCommRing K]
    (embed : String → List K) (now : K) :
    ∀ (items : List (String × List String)) (i : Nat),
      (batchRows embed now i items).map (fun m => (m.content, m.tags)) = items := by
  intro items
  induction items with
  | nil => intro i; rfl
  | cons it rest ih =>
    intro i
    obtain ⟨c, t⟩ := it
    simp only [batchRows, List.map_cons, ih]

/-- C4 counterexample: export a store holding one memory created at time
`5`, import into an empty store at time `7`.  `import_json` keeps only
`content` and `tags` (`(d["content"], d.get("tags", []))`) and the insert
assigns a fresh `created_at`, so the `(content, tags, created_at)`
multiset differs from the original. -/
theorem import_export_counterexample :
    Multiset.ofList
        (((((emptyStore ℤ).import_json embedOne 7
              ((((emptyStore ℤ).add embedOne 5 "a" []).2).export_json)).2).rows).map
          fun m => (m.content, m.tags, m.created_at))
      ≠ Multiset.ofList
        (((((emptyStore ℤ).add embedOne 5 "a" []).2).rows).map
          fun m => (m.content, m.tags, m.created_at)) := by
  decide

/-- C4 amended: importing the output of `export` into an empty store
reproduces exactly the multiset of `(content, tags)` pairs of the original
store; ids are freshly assigned and every `created_at` is reassigned to
the import time (the exported timestamps are dropped by `import_json`). -/
theorem import_export_same_content_tags {K : Type} [LinearOrderedCommRing K]
    (s : Store K) (embed : String → List K) (now : K) :
    (Multiset.ofList
        ((((emptyStore K).import_json embed now s.export_json).2).rows.map
          fun m => (m.content, m.tags)))
      = Multiset.ofList (s.rows.map fun m => (m.content, m.tags)) := by
  have h1 : (((emptyStore K).import_json embed now s.export_json).2).rows
      = batchRows embed now 1 (s.export_json.map fun d => (d.content, d.tags)) := rfl
  rw [h1, batchRows_map_content_tags]
  have h2 : (s.export_json.map fun d => (d.content, d.tags))
      = (sortStable createdAsc s.rows).map fun m => (m.content, m.tags) := by
    rw [Store.export_json, List.map_map]
    rfl
  rw [h2]
  exact Multiset.coe_eq_coe.mpr ((sortStable_perm createdAsc s.rows).map _)

/-! ## Claim C6: `update` contract (spec-modelled) -/

/-- C6 (against the spec-modelled `Store.update`, since `MemoryStore.update`
is absent from `store.py`): for a present id with content supplied, the
call returns true, row ids are unchanged (same id, no new id), and the
row now carries the new content with a freshly computed embedding; a
tag-only update is independent of the embedding provider (no re-embedding)
and leaves every stored embedding unchanged; for an absent id the call
returns false. -/
theorem update_contract {K : Type} [LinearOrderedCommRing K]
    (s : Store K) (embed : String → List K) (memory_id : Nat)
    (c : String) (tagsOpt : Option (List String)) :
    ((∃ m ∈ s.rows, m.id = memory_id) →
       (s.update embed memory_id (some c) tagsOpt).1 = true
       ∧ ((s.update embed memory_id (some c) tagsOpt).2).rows.map (fun m => m.id)
           = s.rows.map (fun m => m.id)
       ∧ ∀ m ∈ ((s.update embed memory_id (some c) tagsOpt).2).rows,
           m.id = memory_id → m.content = c ∧ m.embedding = embed c)
    ∧ (∀ (e₁ e₂ : String → List K) (tl : List String),
         s.update e₁ memory_id none (some tl) = s.update e₂ memory_id none (some tl)
         ∧ ((s.update e₁ memory_id none (some tl)).2).rows.map (fun m => m.embedding)
             = s.rows.map fun m => m.embedding)
    ∧ ((∀ m ∈ s.rows, m.id ≠ memory_id) →
       ∀ (copt : Option String) (topt : Option (List String)),
         (s.update embed memory_id copt topt).1 = false) := by
  refine ⟨?_, ?_, ?_⟩
  · rintro ⟨m0, hm0, hid⟩
    have hany : s.rows.any (fun m => m.id == memory_id) = true :=
      List.any_eq_true.mpr ⟨m0, hm0, by simp [hid]⟩
    refine ⟨?_, ?_, ?_⟩
    · simp [Store.update, hany]
    · simp only [Store.update, hany, if_true, List.map_map]
      refine List.map_congr_left fun a _ => ?_
      by_cases h : a.id = memory_id
      · simp [h]
      · simp [h]
    · intro m hm hmid
      simp only [Store.update, hany, if_true] at hm
      rcases List.mem_map.mp hm with ⟨a, _, rfl⟩
      by_cases h : a.id = memory_id
      · constructor
        · simp [h]
        · simp [h]
      · rw [if_neg (by simpa using h)] at hmid
        exact absurd hmid h
  · intro e₁ e₂ tl
    constructor
    · rfl
    · by_cases hany : s.rows.any (fun m => m.id == memory_id) = true
      · simp only [Store.update, hany, if_true, List.map_map]
        refine List.map_congr_left fun a _ => ?_
        by_cases h : a.id = memory_id
        · simp [h]
        · simp [h]
      · simp only [Store.update]
        rw [if_neg hany]
  · intro habs copt topt
    have hany : ¬ s.rows.any (fun m => m.id == memory_id) = true := by
      rw [List.any_eq_true]
      rintro ⟨m, hm, hbeq⟩
      exact habs m hm (by simpa using hbeq)
    simp only [Store.update]
    rw [if_neg hany]

/-- Witness for C6 at a concrete store: id 1 present (content update),
id 2 present (tag-only update with two different providers), id 99
absent. -/
theorem update_contract_witness :
    (twoRowStore.update embedOne 1 (some "new") none).1 = true
    ∧ (twoRowStore.update embedOne 2 none (some ["t"])
        = twoRowStore.update (fun _ => [5]) 2 none (some ["t"]))
    ∧ (twoRowStore.update embedOne 99 none none).1 = false :=
  ⟨((update_contract twoRowStore embedOne 1 "new" none).1
      ⟨⟨1, "alpha", [], 0, [1]⟩, by decide, rfl⟩).1,
   ((update_contract twoRowStore embedOne 2 "x" none).2.1 embedOne (fun _ => [5]) ["t"]).1,
   (update_contract twoRowStore embedOne 99 "x" none).2.2 (by decide) none none⟩

/-! ## Claim C7: any-match tag filtering -/

/-- C7: with a non-empty tag filter, the candidate set of `search` is
exactly the rows sharing at least one tag with the filter; every memory
returned by `search` or `list` shares at least one tag with the filter
(exclusion direction); `list`'s selection stage is likewise exact — the
output is precisely the any-match rows of the `created_at`-ordered table,
truncated to `limit` — and hence any-match rows are included: whenever the
limit covers the table, every row sharing at least one tag with the
filter is returned by `list`. -/
theorem tag_filter_any_match {K : Type} [LinearOrderedCommRing K]
    (s : Store K) (embed : String → List K) (query : String) (limit : Nat)
    (min_score : K) (filt : List String) (hf : filt ≠ []) :
    s.candidates (some filt) = s.rows.filter (fun m => anyTagMatch filt m.tags)
    ∧ (∀ sc ∈ (s.search embed query limit (some filt) min_score).1,
        anyTagMatch filt sc.mem.tags = true)
    ∧ (∀ m ∈ s.list limit (some filt), anyTagMatch filt m.tags = true)
    ∧ s.list limit (some filt)
        = ((sortStable createdDesc s.rows).filter
            (fun m => anyTagMatch filt m.tags)).take limit
    ∧ ∀ m ∈ s.rows, anyTagMatch filt m.tags = true → s.rows.length ≤ limit →
        m ∈ s.list limit (some filt) := by
  have hpass : ∀ mt : List String, tagPass (some filt) mt = anyTagMatch filt mt := by
    intro mt
    simp only [tagPass]
    rw [if_neg]
    simp only [List.isEmpty_iff]
    exact hf
  have hlist : s.list limit (some filt)
      = ((sortStable createdDesc s.rows).filter
          (fun m => anyTagMatch filt m.tags)).take limit := by
    rw [Store.list, List.filter_congr fun m _ => hpass m.tags]
  refine ⟨?_, ?_, ?_, hlist, ?_⟩
  · simp only [Store.candidates]
    exact List.filter_congr fun m _ => hpass m.tags
  · intro sc hsc
    have hk := mem_search_mem_kept hsc
    have hsc' : sc ∈ s.searchScored embed query (some filt) :=
      (List.mem_filter.mp (by rw [Store.searchKept] at hk; exact hk)).1
    rw [Store.searchScored, List.mem_map] at hsc'
    obtain ⟨m, hm, rfl⟩ := hsc'
    have h2 := (List.mem_filter.mp (by rw [Store.candidates] at hm; exact hm)).2
    rw [hpass] at h2
    exact h2
  · intro m hm
    rw [Store.list] at hm
    have h2 := (List.mem_filter.mp (List.mem_of_mem_take hm)).2
    rw [hpass] at h2
    exact h2
  · intro m hm hmatch hlim
    have h1 : m ∈ (sortStable createdDesc s.rows).filter
        (fun m => anyTagMatch filt m.tags) :=
      List.mem_filter.mpr ⟨mem_sortStable.mpr hm, hmatch⟩
    have hlen : ((sortStable createdDesc s.rows).filter
        (fun m => anyTagMatch filt m.tags)).length ≤ limit := by
      refine le_trans (le_trans (List.length_filter_le _ _) ?_) hlim
      rw [(sortStable_perm createdDesc s.rows).length_eq]
    rw [hlist, List.take_of_length_le hlen]
    exact h1

/-- Witness for C7 with the spec's example filter `["b", "z"]` against a
memory tagged `["a", "b"]`: the candidate set and the `list` stage are the
any-match filters, returned memories share a tag, and the `["a", "b"]`
memory is concretely included in the `list` output. -/
theorem tag_filter_any_match_witness :
    taggedStore.candidates (some ["b", "z"])
        = taggedStore.rows.filter (fun m => anyTagMatch ["b", "z"] m.tags)
    ∧ (∀ sc ∈ (taggedStore.search embedOne "q" 10 (some ["b", "z"]) 0).1,
        anyTagMatch ["b", "z"] sc.mem.tags = true)
    ∧ (∀ m ∈ taggedStore.list 10 (some ["b", "z"]), anyTagMatch ["b", "z"] m.tags = true)
    ∧ (taggedStore.list 10 (some ["b", "z"])
        = ((sortStable createdDesc taggedStore.rows).filter
            (fun m => anyTagMatch ["b", "z"] m.tags)).take 10)
    ∧ (⟨1, "alpha", ["a", "b"], 0, [1]⟩ : Memory ℤ) ∈ taggedStore.list 10 (some ["b", "z"]) :=
  ⟨(tag_filter_any_match taggedStore embedOne "q" 10 0 ["b", "z"] (by decide)).1,
   (tag_filter_any_match taggedStore embedOne "q" 10 0 ["b", "z"] (by decide)).2.1,
   (tag_filter_any_match taggedStore embedOne "q" 10 0 ["b", "z"] (by decide)).2.2.1,
   (tag_filter_any_match taggedStore embedOne "q" 10 0 ["b", "z"] (by decide)).2.2.2.1,
   (tag_filter_any_match taggedStore embedOne "q" 10 0 ["b", "z"] (by decide)).2.2.2.2
     ⟨1, "alpha", ["a", "b"], 0, [1]⟩ (by decide) (by decide) (by decide)⟩

/-! ## Claim C9: `add_batch` contract -/

theorem batchRows_length {K : Type} [LinearOrderedCommRing K]
    (embed : String → List K) (now : K) :
    ∀ (items : List (String × List String)) (i : Nat),
      (batchRows embed now i items).length = items.length := by
  intro items
  induction items with
  | nil => intro i; rfl
  | cons it rest ih =>
    intro i
    obtain ⟨c, t⟩ := it
    simp only [batchRows, List.length_cons, ih]

theorem batchRows_find? {K : Type} [LinearOrderedCommRing K]
    (embed : String → List K) (now : K) :
    ∀ (items : List (String × List String)) (j k : Nat) (hk : k < items.length),
      (batchRows embed now j items).find? (fun m => m.id == j + k)
        = some ⟨j + k, (items.get ⟨k, hk⟩).1, (items.get ⟨k, hk⟩).2,
                now, embed (items.get ⟨k, hk⟩).1⟩ := by
  intro items
  induction items with
  | nil => intro j k hk; exact absurd hk (by simp)
  | cons it rest ih =>
    intro j k hk
    obtain ⟨c, t⟩ := it
    cases k with
    | zero =>
      simp only [batchRows]
      rw [List.find?_cons_of_pos _ (by simp)]
      rfl
    | succ k' =>
      have hne : ((⟨j, c, t, now, embed c⟩ : Memory K).id == j + (k' + 1)) = false := by
        simp only [beq_eq_false_iff_ne, ne_eq]
        omega
      rw [batchRows, List.find?_cons_of_neg _ (by simp [hne])]
      have hk' : k' < rest.length := Nat.lt_of_succ_lt_succ hk
      have harith : j + (k' + 1) = (j + 1) + k' := by omega
      rw [harith]
      rw [ih (j + 1) k' hk']
      rfl

/-- C9: `add_batch` of `n` items returns `n`, grows `count()` by exactly
`n`, and each of the `n` inserted memories is retrievable by `get` under
its sequentially assigned id, carrying its content, tags, timestamp and
freshly computed embedding.  (`get` is spec-modelled, being absent from
`store.py`; the hypothesis is the AUTOINCREMENT invariant that existing
row ids are below the next id.) -/
theorem add_batch_contract {K : Type} [LinearOrderedCommRing K]
    (s : Store K) (embed : String → List K) (now : K)
    (items : List (String × List String))
    (hwf : ∀ m ∈ s.rows, m.id < s.nextId) :
    (s.add_batch embed now items).1 = items.length
    ∧ ((s.add_batch embed now items).2).count = s.count + items.length
    ∧ ∀ (k : Nat) (hk : k < items.length),
        ((s.add_batch embed now items).2).get (s.nextId + k)
          = some ⟨s.nextId + k, (items.get ⟨k, hk⟩).1, (items.get ⟨k, hk⟩).2,
                  now, embed (items.get ⟨k, hk⟩).1⟩ := by
  refine ⟨rfl, ?_, ?_⟩
  · simp only [Store.add_batch, Store.count, List.length_append, batchRows_length]
  · intro k hk
    have hold : s.rows.find? (fun m => m.id == s.nextId + k) = none :=
      List.find?_eq_none.mpr fun m hm => by
        simp only [beq_iff_eq]
        have := hwf m hm
        omega
    simp only [Store.add_batch, Store.get, List.find?_append, hold, Option.none_or]
    exact batchRows_find? embed now items s.nextId k hk

/-- Witness for C9: a batch of two items added to the empty store. -/
theorem add_batch_contract_witness :
    ((emptyStore ℤ).add_batch embedOne 3 [("x", ["t"]), ("y", [])]).1 = 2
    ∧ (((emptyStore ℤ).add_batch embedOne 3 [("x", ["t"]), ("y", [])]).2).count
        = (emptyStore ℤ).count + 2
    ∧ (((emptyStore ℤ).add_batch embedOne 3 [("x", ["t"]), ("y", [])]).2).get (1 + 0)
        = some ⟨1 + 0, "x", ["t"], 3, embedOne "x"⟩ :=
  ⟨(add_batch_contract (emptyStore ℤ) embedOne 3 [("x", ["t"]), ("y", [])] (by decide)).1,
   (add_batch_contract (emptyStore ℤ) embedOne 3 [("x", ["t"]), ("y", [])] (by decide)).2.1,
   (add_batch_contract (emptyStore ℤ) embedOne 3 [("x", ["t"]), ("y", [])] (by decide)).2.2
     0 (by decide)⟩

end Recall
